import Mathlib

/-!
Verification of the hexglobe Goldberg-polyhedron construction.

This file gives a shallow embedding, in Lean, of the combinatorial core of the
hexglobe crate: the subdivision lattice (`src/subdivided_triangle.rs`), the
packed index (`src/projection/packed_index.rs`), the face assembly and
adjacency derivation (`src/hexglobe.rs`), the mesh index buffers, and the
weight precondition check of the spherical interpolation
(`src/interpolation/slerp.rs`).  Rust iterator adaptors (`tuple_windows`,
`step_by`, `interleave`, `cartesian_product`, `unique`) are modelled by list
combinators with the same semantics; `usize`/`u32` arithmetic that cannot
overflow for the inputs considered is modelled on `ℕ`, and `i32` coordinates
are modelled on `ℤ`.
-/

namespace Hexglobe

/-- Rust `itertools::interleave`: alternate elements of the two lists starting with
the first list; once one side runs out the rest of the other side follows. -/
def interleave {α : Type} : List α → List α → List α
  | [], ys => ys
  | x :: xs, [] => x :: xs
  | x :: xs, y :: ys => x :: y :: interleave xs ys

/-- Rust `itertools::tuple_windows::<(_, _)>`: all windows of two consecutive
elements. -/
def tw2 {α : Type} (l : List α) : List (α × α) :=
  l.zip (l.drop 1)

/-- Rust `itertools::tuple_windows::<(_, _, _)>`: all windows of three consecutive
elements. -/
def tw3 {α : Type} (l : List α) : List (α × α × α) :=
  l.zip ((l.drop 1).zip (l.drop 2))

/-- Rust `Iterator::step_by(2)`: every other element, starting with the first. -/
def stepBy2 {α : Type} : List α → List α
  | [] => []
  | [a] => [a]
  | a :: _ :: rest => a :: stepBy2 rest

/-- Helper for `uniq`, carrying the set of already seen elements. -/
def uniqAux {α : Type} [DecidableEq α] : List α → List α → List α
  | _, [] => []
  | seen, a :: rest =>
    if a ∈ seen then uniqAux seen rest else a :: uniqAux (a :: seen) rest

/-- Rust `itertools::unique`: keep only the first occurrence of every element. -/
def uniq {α : Type} [DecidableEq α] (l : List α) : List α :=
  uniqAux [] l

/-- Rust `itertools::cartesian_product`: all pairs, outer loop over the first
list. -/
def cartProd {α β : Type} (as : List α) (bs : List β) : List (α × β) :=
  as.flatMap (fun a => bs.map (fun b => (a, b)))

theorem interleave_length {α : Type} :
    ∀ xs ys : List α, (interleave xs ys).length = xs.length + ys.length
  | [], ys => by simp [interleave]
  | x :: xs, [] => by simp [interleave]
  | x :: xs, y :: ys => by
    simp [interleave, interleave_length xs ys]
    omega

theorem tw2_length {α : Type} (l : List α) : (tw2 l).length = l.length - 1 := by
  simp [tw2]

theorem tw3_length {α : Type} (l : List α) : (tw3 l).length = l.length - 2 := by
  simp [tw3]
  omega

theorem stepBy2_length {α : Type} :
    ∀ l : List α, (stepBy2 l).length = (l.length + 1) / 2
  | [] => by simp [stepBy2]
  | [_] => by simp [stepBy2]
  | _ :: _ :: rest => by
    simp [stepBy2, stepBy2_length rest]
    omega

theorem cartProd_length {α β : Type} (as : List α) (bs : List β) :
    (cartProd as bs).length = as.length * bs.length := by
  simp [cartProd, List.length_flatMap]
  induction as with
  | nil => simp
  | cons a as ih => simp [ih, Nat.succ_mul, Nat.add_comm]

theorem mem_uniqAux {α : Type} [DecidableEq α] :
    ∀ (seen l : List α) (x : α), x ∈ uniqAux seen l ↔ x ∈ l ∧ x ∉ seen
  | _, [], x => by simp [uniqAux]
  | seen, a :: rest, x => by
    simp only [uniqAux]
    by_cases h : a ∈ seen
    · rw [if_pos h, mem_uniqAux seen rest x]
      constructor
      · rintro ⟨hx, hn⟩; exact ⟨List.mem_cons_of_mem a hx, hn⟩
      · rintro ⟨hx, hn⟩
        rcases List.mem_cons.mp hx with rfl | hx2
        · exact absurd h hn
        · exact ⟨hx2, hn⟩
    · rw [if_neg h]
      constructor
      · intro hmem
        rcases List.mem_cons.mp hmem with rfl | hx2
        · exact ⟨List.mem_cons_self x rest, h⟩
        · obtain ⟨hx, hn⟩ := (mem_uniqAux (a :: seen) rest x).mp hx2
          exact ⟨List.mem_cons_of_mem a hx,
            fun hs => hn (List.mem_cons_of_mem a hs)⟩
      · rintro ⟨hx, hn⟩
        rcases List.mem_cons.mp hx with rfl | hx2
        · exact List.mem_cons_self x _
        · by_cases hxa : x = a
          · exact hxa ▸ List.mem_cons_self a _
          · refine List.mem_cons_of_mem a
              ((mem_uniqAux (a :: seen) rest x).mpr ⟨hx2, ?_⟩)
            intro hc
            rcases List.mem_cons.mp hc with h1 | h2
            · exact hxa h1
            · exact hn h2

theorem mem_uniq {α : Type} [DecidableEq α] (l : List α) (x : α) :
    x ∈ uniq l ↔ x ∈ l := by
  simp [uniq, mem_uniqAux]

theorem nodup_uniqAux {α : Type} [DecidableEq α] :
    ∀ (seen l : List α), (uniqAux seen l).Nodup
  | _, [] => List.nodup_nil
  | seen, a :: rest => by
    by_cases h : a ∈ seen
    · simpa [uniqAux, if_pos h] using nodup_uniqAux seen rest
    · simp only [uniqAux, if_neg h, List.nodup_cons]
      refine ⟨fun hmem => ?_, nodup_uniqAux (a :: seen) rest⟩
      exact ((mem_uniqAux (a :: seen) rest a).mp hmem).2 (List.mem_cons_self a seen)

theorem nodup_uniq {α : Type} [DecidableEq α] (l : List α) : (uniq l).Nodup :=
  nodup_uniqAux [] l

/-! ## Packed index (`src/projection/packed_index.rs`)

`PackedIndex` wraps a `usize`; the lower 5 bits hold the seed-face id, the
remaining bits the lattice-vertex (subdivision) index.  `usize` is 64 bits
wide, so the constructor computes `(subdivision << 5) | face` modulo `2 ^ 64`
(Rust `<<` silently discards shifted-out bits). -/

/-- Bit width of `usize`. -/
def usizeBits : ℕ := 64

/-- Rust `PackedIndex::new(face, subdivision)`: `(subdivision << 5) | face`,
with the shift performed in 64-bit arithmetic. -/
def PackedIndex.new (face subdivision : ℕ) : ℕ :=
  ((subdivision <<< 5) % 2 ^ usizeBits) ||| face

/-- Rust `PackedIndex::face`: `self.0 & 0b11111`. -/
def PackedIndex.face (p : ℕ) : ℕ :=
  p &&& 0b11111

/-- Rust `PackedIndex::subdivision`: `self.0 >> 5`. -/
def PackedIndex.subdivision (p : ℕ) : ℕ :=
  p >>> 5

theorem packedIndex_new_eq (face subdivision : ℕ) (hf : face < 32)
    (hs : subdivision < 2 ^ 59) :
    PackedIndex.new face subdivision = 2 ^ 5 * subdivision + face := by
  have hshift : subdivision <<< 5 = 2 ^ 5 * subdivision := by
    rw [Nat.shiftLeft_eq]; ring
  have hlt : 2 ^ 5 * subdivision < 2 ^ usizeBits := by
    have h1 : 2 ^ 5 * subdivision < 2 ^ 5 * 2 ^ 59 :=
      mul_lt_mul_of_pos_left hs (by norm_num)
    calc 2 ^ 5 * subdivision < 2 ^ 5 * 2 ^ 59 := h1
      _ = 2 ^ usizeBits := by norm_num [usizeBits]
  unfold PackedIndex.new
  rw [hshift, Nat.mod_eq_of_lt hlt, ← Nat.mul_add_lt_is_or hf]

/-- C7: the packed-index round trip.  For `face < 32` and any subdivision
index that fits (i.e. whose shifted form does not overflow 64 bits),
`face (new f s) = f` and `subdivision (new f s) = s`. -/
theorem packedIndex_roundtrip (face subdivision : ℕ) (hf : face < 32)
    (hs : subdivision < 2 ^ 59) :
    PackedIndex.face (PackedIndex.new face subdivision) = face ∧
    PackedIndex.subdivision (PackedIndex.new face subdivision) = subdivision := by
  rw [packedIndex_new_eq face subdivision hf hs]
  constructor
  · have h31 : (0b11111 : ℕ) = 2 ^ 5 - 1 := by norm_num
    rw [PackedIndex.face, h31, Nat.and_pow_two_sub_one_eq_mod]
    rw [Nat.mul_add_mod]
    exact Nat.mod_eq_of_lt hf
  · rw [PackedIndex.subdivision, Nat.shiftRight_eq_div_pow]
    rw [Nat.mul_add_div (by norm_num)]
    simp [Nat.div_eq_of_lt hf]

/-- Witness for C7 at `face = 19`, `subdivision = 12345`. -/
theorem packedIndex_roundtrip_witness :
    PackedIndex.face (PackedIndex.new 19 12345) = 19 ∧
    PackedIndex.subdivision (PackedIndex.new 19 12345) = 12345 :=
  packedIndex_roundtrip 19 12345 (by norm_num) (by norm_num)

/-! ## Subdivision lattice (`src/subdivided_triangle.rs`)

Lattice vertices are `glam::IVec3` values (`i32` triples); all values that
actually occur lie far inside the `i32` range, so the coordinates are
modelled on `ℤ`. -/

/-- Rust `glam::IVec3`, restricted to what the program uses. -/
structure IVec3 where
  x : ℤ
  y : ℤ
  z : ℤ
  deriving DecidableEq, Repr

/-- Componentwise addition of `IVec3`. -/
def IVec3.add (a b : IVec3) : IVec3 :=
  ⟨a.x + b.x, a.y + b.y, a.z + b.z⟩

/-- Componentwise subtraction of `IVec3`. -/
def IVec3.sub (a b : IVec3) : IVec3 :=
  ⟨a.x - b.x, a.y - b.y, a.z - b.z⟩

instance : Add IVec3 := ⟨IVec3.add⟩

instance : Sub IVec3 := ⟨IVec3.sub⟩

/-- Rust `n_triangles(n) = n * n`. -/
def nTriangles (n : ℕ) : ℕ := n * n

/-- Rust `n_vertices(n) = (n + 1) * (n + 2) / 2`. -/
def nVertices (n : ℕ) : ℕ := (n + 1) * (n + 2) / 2

/-- Rust `n_triangles_up(n) = n * (n + 1) / 2`. -/
def nTrianglesUp (n : ℕ) : ℕ := n * (n + 1) / 2

/-- Rust `n_triangles_down(n) = n * (n - 1) / 2`. -/
def nTrianglesDown (n : ℕ) : ℕ := n * (n - 1) / 2

/-- Rust `n_edges(n) = n_triangles_up(n) * 3`. -/
def nEdges (n : ℕ) : ℕ := nTrianglesUp n * 3

/-- Free function `compute_vertex_index_unchecked(n, v)`:
`x_offset = (v.x * (2 * (n + 1) as i32 + 1 - v.x) / 2) as usize`,
`y_offset = v.y as usize`, result `x_offset + y_offset`.  The `i32` division
truncates toward zero (`Int.div`); the `as usize` casts are applied only to
non-negative values by every caller with valid input, modelled `Int.toNat`. -/
def computeVertexIndexUnchecked (n : ℕ) (v : IVec3) : ℕ :=
  (Int.tdiv (v.x * (2 * ((n : ℤ) + 1) + 1 - v.x)) 2).toNat + v.y.toNat

/-- Rust `SubdividedTriangle::<N>::compute_vertex_index(v)`: validates that the
coordinates are non-negative and sum to `N`, then defers to the unchecked
index computation. -/
def computeVertexIndex (n : ℕ) (v : IVec3) : Option ℕ :=
  if v.x < 0 ∨ v.y < 0 ∨ v.z < 0 ∨ v.x + v.y + v.z ≠ (n : ℤ) then none
  else some (computeVertexIndexUnchecked n v)

/-- Rust `SubdividedTriangle::<N>::compute_vertex_interior_index_unchecked(v)`:
the same closed form at level `N - 3` on `(x - 1, y - 1, z - 1)`. -/
def vertexInteriorIndexUnchecked (n : ℕ) (v : IVec3) : ℕ :=
  computeVertexIndexUnchecked (n - 3) ⟨v.x - 1, v.y - 1, v.z - 1⟩

/-- The vertex list built in `SubdividedTriangle::new`: the triple cartesian
product of `0..(N + 1)` (outer loop `x`, then `y`, then `z`), filtered to
`x + y + z == N`, wrapped into `IVec3`.  The Rust code writes these values
into a vector of length `VERTICES`; `verticesList_length` below shows the
iterator produces exactly that many values, so the vector content is exactly
this list. -/
def verticesList (n : ℕ) : List IVec3 :=
  (((List.range (n + 1)).flatMap (fun x =>
      (List.range (n + 1)).flatMap (fun y =>
        (List.range (n + 1)).map (fun z => ((x, y), z))))).filter
    (fun p => p.1.1 + p.1.2 + p.2 = n)).map
    (fun p => ⟨(p.1.1 : ℤ), (p.1.2 : ℤ), (p.2 : ℤ)⟩)

/-- Rust `du = (-1, 1, 0)`. -/
def du : IVec3 := ⟨-1, 1, 0⟩

/-- Rust `dv = (-1, 0, 1)`. -/
def dv : IVec3 := ⟨-1, 0, 1⟩

/-- A triangle of vertex indices (`Triangle<usize>` in the Rust code). -/
structure Triangle where
  u : ℕ
  v : ℕ
  w : ℕ
  deriving DecidableEq, Repr

/-- Upward triangles of `src/subdivided_triangle.rs` (filter `v.x > 0`). -/
def trianglesUpList (n : ℕ) : List Triangle :=
  ((verticesList n).filter (fun v => 0 < v.x)).map (fun v =>
    ⟨computeVertexIndexUnchecked n v,
     computeVertexIndexUnchecked n (v + du),
     computeVertexIndexUnchecked n (v + dv)⟩)

/-- Downward triangles of `src/subdivided_triangle.rs`
(filter `v.y > 0 && v.z > 0`). -/
def trianglesDownList (n : ℕ) : List Triangle :=
  ((verticesList n).filter (fun v => 0 < v.y ∧ 0 < v.z)).map (fun v =>
    ⟨computeVertexIndexUnchecked n v,
     computeVertexIndexUnchecked n (v - du),
     computeVertexIndexUnchecked n (v - dv)⟩)

/-- The triangle list of `src/subdivided_triangle.rs`: upward triangles
chained with downward triangles (written into a vector of length
`TRIANGLES`). -/
def trianglesList (n : ℕ) : List Triangle :=
  trianglesUpList n ++ trianglesDownList n

/-- Upward triangles of the variant `src/subdivision/subdivided_triangle.rs`
(filter `v.x > 0 && v.y < N && v.z < N`). -/
def trianglesUpListSub (n : ℕ) : List Triangle :=
  ((verticesList n).filter (fun v => 0 < v.x ∧ v.y < (n : ℤ) ∧ v.z < (n : ℤ))).map (fun v =>
    ⟨computeVertexIndexUnchecked n v,
     computeVertexIndexUnchecked n (v + du),
     computeVertexIndexUnchecked n (v + dv)⟩)

/-- Downward triangles of the variant `src/subdivision/subdivided_triangle.rs`
(filter `v.x < N && v.y > 0 && v.z > 0`). -/
def trianglesDownListSub (n : ℕ) : List Triangle :=
  ((verticesList n).filter (fun v => v.x < (n : ℤ) ∧ 0 < v.y ∧ 0 < v.z)).map (fun v =>
    ⟨computeVertexIndexUnchecked n v,
     computeVertexIndexUnchecked n (v - du),
     computeVertexIndexUnchecked n (v - dv)⟩)

/-- Triangle list of the variant implementation. -/
def trianglesListSub (n : ℕ) : List Triangle :=
  trianglesUpListSub n ++ trianglesDownListSub n

/-- Rust `SubdividedTriangle::u()`: `TRIANGLES_UP - 1`. -/
def triCornerU (n : ℕ) : ℕ := nTrianglesUp n - 1

/-- Rust `SubdividedTriangle::v()`: `N - 1`. -/
def triCornerV (n : ℕ) : ℕ := n - 1

/-- Rust `SubdividedTriangle::w()`: `0`. -/
def triCornerW (_ : ℕ) : ℕ := 0

/-- Rust `SubdividedTriangle::uv()`: the loop writes `edge[2i] =
TRIANGLES_UP - i(i+1)/2 - 1` for `i < N` and `edge[2i+1] =
TRIANGLES - i(i+1)/2 - 1` for `i < N - 1` into a vector of length
`2N - 1`. -/
def uvList (n : ℕ) : List ℕ :=
  (List.range (2 * n - 1)).map (fun j =>
    if j % 2 = 0 then nTrianglesUp n - (j / 2) * (j / 2 + 1) / 2 - 1
    else nTriangles n - (j / 2) * (j / 2 + 1) / 2 - 1)

/-- Rust `SubdividedTriangle::vw()`: `edge[2i] = (N - 1) - i` for `i < N`,
`edge[2i+1] = TRIANGLES_UP + N - 2 - i` for `i < N - 1`. -/
def vwList (n : ℕ) : List ℕ :=
  (List.range (2 * n - 1)).map (fun j =>
    if j % 2 = 0 then (n - 1) - j / 2
    else nTrianglesUp n + n - 2 - j / 2)

/-- Rust `SubdividedTriangle::wu()`: with `k = N - 1 - i`, `edge[2i] =
TRIANGLES_UP - (k+1)(k+2)/2` for `i < N` and `edge[2i-1] =
TRIANGLES - (k+1)(k+2)/2` for `1 ≤ i < N`; note `k + 1 = N - i` and
`k + 2 = N - i + 1`. -/
def wuList (n : ℕ) : List ℕ :=
  (List.range (2 * n - 1)).map (fun j =>
    if j % 2 = 0 then nTrianglesUp n - (n - j / 2) * (n - j / 2 + 1) / 2
    else nTriangles n - (n - (j + 1) / 2) * (n - (j + 1) / 2 + 1) / 2)

/-- Rust `SubdividedTriangle::upward_row(i)`: empty for `i ≥ N`, otherwise the
index range of length `k = N - i` starting at `TRIANGLES_UP - k(k+1)/2`. -/
def upwardRow (n i : ℕ) : List ℕ :=
  if n ≤ i then []
  else List.range' (nTrianglesUp n - (n - i) * (n - i + 1) / 2) (n - i)

/-- Rust `SubdividedTriangle::downward_row(i)`: empty for `i ≥ N - 1`, otherwise
the index range of length `k = N - 1 - i` starting at
`TRIANGLES_UP + TRIANGLES_DOWN - k(k+1)/2`. -/
def downwardRow (n i : ℕ) : List ℕ :=
  if n - 1 ≤ i then []
  else List.range'
    (nTrianglesUp n + nTrianglesDown n - (n - 1 - i) * (n - 1 - i + 1) / 2)
    (n - 1 - i)

/-- Rust `SubdividedTriangle::row(i)`: upward row interleaved with downward
row. -/
def rowList (n i : ℕ) : List ℕ :=
  interleave (upwardRow n i) (downwardRow n i)

/-- Rust `SubdividedTriangle::vertex_denominator(i)`: the `IVec3` stored at
index `i` of the vertex list (Rust panics when out of range; the default
value is never used by in-range callers). -/
def vertexDenominator (n i : ℕ) : IVec3 :=
  (verticesList n).getD i ⟨0, 0, 0⟩

/-- One row of `SubdividedTriangle::vertex_adjacency()` of
`src/subdivided_triangle.rs`: with `l = N + 1 - x` and
`start = VERTICES - l(l+1)/2`, chain the in-row windows, the
`(start..end-1)`/`(start+l..end+l-1)` zip and the
`(start+1..end)`/`(start+l..end+l-1)` zip. -/
def arithRow (n x : ℕ) : List (ℕ × ℕ) :=
  let l := n + 1 - x
  let start := nVertices n - l * (l + 1) / 2
  tw2 (List.range' start l)
    ++ ((List.range' start (l - 1)).zip (List.range' (start + l) (l - 1)))
    ++ ((List.range' (start + 1) (l - 1)).zip (List.range' (start + l) (l - 1)))

/-- Rust `SubdividedTriangle::vertex_adjacency()` of
`src/subdivided_triangle.rs`: the rows above, flat-mapped over `x < N`. -/
def vertexAdjacencyArith (n : ℕ) : List (ℕ × ℕ) :=
  (List.range n).flatMap (arithRow n)

/-- Rust `SubdividedTriangle::vertex_adjacency()` of the variant
`src/subdivision/subdivided_triangle.rs`: every triangle's three directed
edges, normalised to `(min, max)`, deduplicated keeping first
occurrences (`itertools::unique`). -/
def vertexAdjacencyDedup (n : ℕ) : List (ℕ × ℕ) :=
  uniq (((trianglesListSub n).flatMap
      (fun t => [(t.u, t.v), (t.v, t.w), (t.w, t.u)])).map
    (fun p => (min p.1 p.2, max p.1 p.2)))

/-- Rust `SubdividedTriangle::<N>::new()` asserts `N ≠ 0` and otherwise builds the
vertex and triangle lists; the panic is modelled as `none`. -/
def subdividedTriangleNew (n : ℕ) : Option (List IVec3 × List Triangle) :=
  if n = 0 then none
  else some (verticesList n, trianglesList n)

/-! ### Structure of the vertex list -/

/-- Abbreviation for a lattice vertex with natural coordinates. -/
def natVec (x y z : ℕ) : IVec3 :=
  ⟨(x : ℤ), (y : ℤ), (z : ℤ)⟩

/-- Row-structured form of the vertex list: for each `x ≤ n` the vertices
`(x, y, n - x - y)` for `y < n + 1 - x`, rows in ascending `x`, each row in
ascending `y` — i.e. ascending lexicographic order on `(x, y)`. -/
def verticesRows (n : ℕ) : List IVec3 :=
  (List.range (n + 1)).flatMap (fun x =>
    (List.range (n + 1 - x)).map (fun y => natVec x y (n - x - y)))

theorem filter_flatMap_comm {α β : Type} (l : List α) (f : α → List β)
    (p : β → Bool) :
    (l.flatMap f).filter p = l.flatMap (fun a => (f a).filter p) := by
  induction l with
  | nil => simp
  | cons a l ih => simp [List.filter_append, ih]

theorem map_flatMap_comm {α β γ : Type} (l : List α) (f : α → List β)
    (g : β → γ) :
    (l.flatMap f).map g = l.flatMap (fun a => (f a).map g) := by
  induction l with
  | nil => simp
  | cons a l ih => simp [ih]

theorem filter_range_sum (m : ℕ) :
    ∀ k c, (List.range k).filter (fun z => decide (c + z = m)) =
      if c ≤ m ∧ m - c < k then [m - c] else [] := by
  intro k
  induction k with
  | zero => simp
  | succ k ih =>
    intro c
    rw [List.range_succ, List.filter_append, ih c]
    by_cases h1 : c + k = m
    · have h2 : ¬(c ≤ m ∧ m - c < k) := by omega
      have h3 : c ≤ m ∧ m - c < k + 1 := by omega
      simp only [if_neg h2, if_pos h3, List.nil_append, List.filter_cons,
        List.filter_nil]
      simp [h1]
      omega
    · by_cases h4 : c ≤ m ∧ m - c < k
      · have h5 : c ≤ m ∧ m - c < k + 1 := by omega
        simp only [if_pos h4, if_pos h5, List.filter_cons, List.filter_nil]
        simp [h1]
      · have h6 : ¬(c ≤ m ∧ m - c < k + 1) := by omega
        simp only [if_neg h4, if_neg h6, List.nil_append, List.filter_cons,
          List.filter_nil]
        simp [h1]

theorem flatMap_if_singleton {β : Type} (g : ℕ → β) (b : ℕ) :
    ∀ k, (List.range k).flatMap (fun y => if y < b then [g y] else []) =
      (List.range (min k b)).map g := by
  intro k
  induction k with
  | zero => simp
  | succ k ih =>
    rw [List.range_succ, List.flatMap_append, ih]
    by_cases h : k < b
    · have h1 : min (k + 1) b = min k b + 1 := by omega
      have h2 : min k b = k := by omega
      rw [h1, List.range_succ]
      simp [h2, h]
    · have h2 : min (k + 1) b = min k b := by omega
      simp [h, h2]

theorem verticesList_eq_rows (n : ℕ) : verticesList n = verticesRows n := by
  unfold verticesList verticesRows
  rw [filter_flatMap_comm, map_flatMap_comm]
  refine List.flatMap_congr (fun x hx => ?_)
  rw [filter_flatMap_comm, map_flatMap_comm]
  have inner : ∀ y : ℕ,
      ((((List.range (n + 1)).map (fun z => ((x, y), z))).filter
          (fun p => decide (p.1.1 + p.1.2 + p.2 = n))).map
        (fun p => (⟨(p.1.1 : ℤ), (p.1.2 : ℤ), (p.2 : ℤ)⟩ : IVec3))) =
      if y < n + 1 - x then [natVec x y (n - x - y)] else [] := by
    intro y
    rw [List.filter_map]
    have hcomp : ((fun p => decide (p.1.1 + p.1.2 + p.2 = n)) ∘
        (fun z => ((x, y), z))) = fun z => decide (x + y + z = n) := by
      funext z; rfl
    rw [hcomp, filter_range_sum n (n + 1) (x + y)]
    by_cases h : x + y ≤ n
    · have h1 : x + y ≤ n ∧ n - (x + y) < n + 1 := by omega
      have h2 : y < n + 1 - x := by omega
      rw [if_pos h1, if_pos h2, List.map_cons, List.map_nil]
      have h3 : n - (x + y) = n - x - y := by omega
      simp [natVec, h3]
    · have h1 : ¬(x + y ≤ n ∧ n - (x + y) < n + 1) := by omega
      have h2 : ¬(y < n + 1 - x) := by omega
      rw [if_neg h1, if_neg h2]
      simp
  calc ((List.range (n + 1)).flatMap (fun y =>
        ((((List.range (n + 1)).map (fun z => ((x, y), z))).filter
            (fun p => decide (p.1.1 + p.1.2 + p.2 = n))).map
          (fun p => (⟨(p.1.1 : ℤ), (p.1.2 : ℤ), (p.2 : ℤ)⟩ : IVec3)))))
      = (List.range (n + 1)).flatMap (fun y =>
          if y < n + 1 - x then [natVec x y (n - x - y)] else []) :=
        List.flatMap_congr (fun y _ => inner y)
    _ = (List.range (min (n + 1) (n + 1 - x))).map
          (fun y => natVec x y (n - x - y)) :=
        flatMap_if_singleton _ _ _
    _ = (List.range (n + 1 - x)).map (fun y => natVec x y (n - x - y)) := by
        have hmin : min (n + 1) (n + 1 - x) = n + 1 - x := by omega
        rw [hmin]

/-- Sum of the first `x` row lengths of the lattice; shown below to equal the
closed form `x * (2 * (N + 1) + 1 - x) / 2` used by
`compute_vertex_index_unchecked`. -/
def vertexRowStart (n x : ℕ) : ℕ :=
  ((List.range x).map (fun i => n + 1 - i)).sum

theorem vertexRowStart_mul_two (n : ℕ) :
    ∀ x, x ≤ n + 1 → vertexRowStart n x * 2 = x * (2 * (n + 1) + 1 - x) := by
  intro x
  induction x with
  | zero => simp [vertexRowStart]
  | succ x ih =>
    intro hx
    have hx' : x ≤ n + 1 := by omega
    obtain ⟨k, hk⟩ : ∃ k, n + 1 = x + k := ⟨n + 1 - x, by omega⟩
    have e1 : 2 * (n + 1) + 1 - x = x + 2 * k + 1 := by omega
    have e2 : 2 * (n + 1) + 1 - (x + 1) = x + 2 * k := by omega
    have e3 : n + 1 - x = k := by omega
    have hs : vertexRowStart n (x + 1) = vertexRowStart n x + k := by
      unfold vertexRowStart
      rw [List.range_succ, List.map_append, List.sum_append]
      simp [e3]
    rw [hs, e2, Nat.add_mul, ih hx', e1]
    ring

theorem vertexRowStart_closed (n x : ℕ) (hx : x ≤ n + 1) :
    vertexRowStart n x = x * (2 * (n + 1) + 1 - x) / 2 :=
  (Nat.div_eq_of_eq_mul_left (by norm_num)
    (vertexRowStart_mul_two n x hx).symm).symm

theorem verticesRows_length (n : ℕ) :
    (verticesRows n).length = nVertices n := by
  have h1 : (verticesRows n).length = vertexRowStart n (n + 1) := by
    unfold verticesRows vertexRowStart
    rw [List.length_flatMap]
    congr 1
    refine List.map_congr_left (fun x hx => ?_)
    simp only [Function.comp_apply, List.length_map, List.length_range]
  have h2 := vertexRowStart_mul_two n (n + 1) (Nat.le_refl _)
  have h3 : 2 * (n + 1) + 1 - (n + 1) = n + 2 := by omega
  rw [h3] at h2
  rw [h1]
  unfold nVertices
  omega

theorem verticesList_length (n : ℕ) :
    (verticesList n).length = nVertices n := by
  rw [verticesList_eq_rows]; exact verticesRows_length n

theorem getElem_flatMap_range' {β : Type} (f : ℕ → List β) :
    ∀ (x s m y : ℕ), x < m → y < (f (s + x)).length →
      ((List.range' s m).flatMap f)[
        (((List.range' s x).map (fun i => (f i).length)).sum + y)]? =
        (f (s + x))[y]? := by
  intro x
  induction x with
  | zero =>
    intro s m y hx hy
    obtain ⟨m', rfl⟩ : ∃ m', m = m' + 1 := ⟨m - 1, by omega⟩
    rw [List.range'_succ, List.flatMap_cons]
    simp only [List.range', List.map_nil, List.sum_nil, Nat.zero_add]
    rw [List.getElem?_append_left (by simpa using hy)]
    simp
  | succ x ih =>
    intro s m y hx hy
    obtain ⟨m', rfl⟩ : ∃ m', m = m' + 1 := ⟨m - 1, by omega⟩
    rw [List.range'_succ, List.flatMap_cons, List.range'_succ]
    rw [List.map_cons, List.sum_cons]
    rw [List.getElem?_append_right (by omega)]
    have harith : (f s).length +
        ((List.range' (s + 1) x).map (fun i => (f i).length)).sum + y -
        (f s).length =
        ((List.range' (s + 1) x).map (fun i => (f i).length)).sum + y := by
      omega
    rw [harith]
    have hsx : s + (x + 1) = (s + 1) + x := by omega
    rw [hsx] at hy ⊢
    exact ih (s + 1) m' y (by omega) hy

theorem verticesRows_getElem (n x y : ℕ) (hx : x ≤ n) (hy : y < n + 1 - x) :
    (verticesRows n)[vertexRowStart n x + y]? =
      some (natVec x y (n - x - y)) := by
  unfold verticesRows
  rw [List.range_eq_range']
  have hstart : (((List.range' 0 x).map (fun i =>
      ((List.range (n + 1 - i)).map
        (fun y' => natVec i y' (n - i - y'))).length)).sum) =
      vertexRowStart n x := by
    unfold vertexRowStart
    rw [← List.range_eq_range']
    congr 1
    refine List.map_congr_left (fun i _ => ?_)
    simp only [List.length_map, List.length_range]
  rw [← hstart]
  rw [getElem_flatMap_range' _ x 0 (n + 1) y (by omega)
    (by simpa using hy)]
  simp only [Nat.zero_add]
  rw [List.getElem?_map]
  simp [List.getElem?_range, hy]

/-- C4: for every `N ≥ 1` and every lattice vertex `(x, y, z)` with
`x + y + z = N`, `compute_vertex_index` returns `Some` of the closed form
`x * (2(N+1) + 1 − x) / 2 + y`, and the vertex stored at that position of the
list built by `SubdividedTriangle::new` (which enumerates vertices in
ascending lexicographic order on `(x, y)`) is exactly `(x, y, z)`. -/
theorem vertex_index_closed_form (n x y z : ℕ) (hn : 1 ≤ n)
    (hsum : x + y + z = n) :
    computeVertexIndex n (natVec x y z) =
      some (x * (2 * (n + 1) + 1 - x) / 2 + y) ∧
    (verticesList n)[x * (2 * (n + 1) + 1 - x) / 2 + y]? =
      some (natVec x y z) := by
  have hx : x ≤ n := by omega
  have hy : y < n + 1 - x := by omega
  constructor
  · unfold computeVertexIndex
    have hguard : ¬((natVec x y z).x < 0 ∨ (natVec x y z).y < 0 ∨
        (natVec x y z).z < 0 ∨
        (natVec x y z).x + (natVec x y z).y + (natVec x y z).z ≠ (n : ℤ)) := by
      push_neg
      simp only [natVec]
      refine ⟨by positivity, by positivity, by positivity, ?_⟩
      omega
    rw [if_neg hguard]
    unfold computeVertexIndexUnchecked
    congr 1
    have hA : (natVec x y z).x * (2 * ((n : ℤ) + 1) + 1 - (natVec x y z).x) =
        ((x * (2 * (n + 1) + 1 - x) : ℕ) : ℤ) := by
      simp only [natVec]
      push_cast [Nat.cast_sub (show x ≤ 2 * (n + 1) + 1 by omega)]
      ring
    rw [hA]
    have htd : Int.tdiv ((x * (2 * (n + 1) + 1 - x) : ℕ) : ℤ) 2 =
        ((x * (2 * (n + 1) + 1 - x) / 2 : ℕ) : ℤ) := by
      exact_mod_cast Int.ofNat_tdiv (x * (2 * (n + 1) + 1 - x)) 2
    rw [htd]
    simp only [natVec]
    omega
  · rw [verticesList_eq_rows, ← vertexRowStart_closed n x (by omega)]
    rw [verticesRows_getElem n x y hx hy]
    have hz : n - x - y = z := by omega
    rw [hz]

/-- Witness for C4 at `N = 3`, `(x, y, z) = (1, 0, 2)`: the closed form gives
index `4` and the fifth vertex of the constructed list is `(1, 0, 2)`. -/
theorem vertex_index_closed_form_witness :
    computeVertexIndex 3 (natVec 1 0 2) =
      some (1 * (2 * (3 + 1) + 1 - 1) / 2 + 0) ∧
    (verticesList 3)[1 * (2 * (3 + 1) + 1 - 1) / 2 + 0]? =
      some (natVec 1 0 2) :=
  vertex_index_closed_form 3 1 0 2 (by norm_num) (by norm_num)
/-! ## Face assembly (`src/hexglobe.rs`) -/

/-- Rust `ExactFace`: a pentagon or hexagon whose corners are packed indices. -/
inductive ExactFace
  | Pentagon (v : List ℕ)
  | Hexagon (v : List ℕ)
  deriving DecidableEq, Repr

/-- Rust `ExactFace::construct_hexagon`. -/
def constructHexagon (p0 p1 p2 p3 p4 p5 : ℕ × ℕ) : ExactFace :=
  ExactFace.Hexagon [PackedIndex.new p0.1 p0.2, PackedIndex.new p1.1 p1.2,
    PackedIndex.new p2.1 p2.2, PackedIndex.new p3.1 p3.2,
    PackedIndex.new p4.1 p4.2, PackedIndex.new p5.1 p5.2]

/-- Rust `ExactFace::construct_pentagon`. -/
def constructPentagon (p0 p1 p2 p3 p4 : ℕ × ℕ) : ExactFace :=
  ExactFace.Pentagon [PackedIndex.new p0.1 p0.2, PackedIndex.new p1.1 p1.2,
    PackedIndex.new p2.1 p2.2, PackedIndex.new p3.1 p3.2,
    PackedIndex.new p4.1 p4.2]

/-- Rust `HexGlobe::SEED_VERTICES`. -/
def SEED_VERTICES : ℕ := 12

/-- Rust `HexGlobe::SEED_EDGES`. -/
def SEED_EDGES : ℕ := 30

/-- Rust `HexGlobe::SEED_FACES`. -/
def SEED_FACES : ℕ := 20

/-- Rust `HexGlobe::FACES_PER_VERTEX`. -/
def FACES_PER_VERTEX : ℕ := 1

/-- Rust `HexGlobe::FACES_PER_EDGE = N - 1`. -/
def FACES_PER_EDGE (n : ℕ) : ℕ := n - 1

/-- Rust `HexGlobe::FACES_PER_FACE = (N - 1) * (max(N, 2) - 2) / 2`. -/
def FACES_PER_FACE (n : ℕ) : ℕ := (n - 1) * (max n 2 - 2) / 2

/-- Rust `HexGlobe::PENTAGONS = SEED_VERTICES`. -/
def PENTAGONS : ℕ := SEED_VERTICES

/-- Rust `HexGlobe::HEXAGONS = SEED_EDGES * FACES_PER_EDGE + SEED_FACES *
FACES_PER_FACE`. -/
def HEXAGONS (n : ℕ) : ℕ :=
  SEED_EDGES * FACES_PER_EDGE n + SEED_FACES * FACES_PER_FACE n

/-- Rust `HexGlobe::FACES = PENTAGONS + HEXAGONS`. -/
def FACES (n : ℕ) : ℕ := PENTAGONS + HEXAGONS n

/-- Rust `HexGlobe::MESH_PENTAGON_VERTICES = PENTAGONS * 5`. -/
def MESH_PENTAGON_VERTICES : ℕ := PENTAGONS * 5

/-- Rust `HexGlobe::MESH_HEXAGON_VERTICES = HEXAGONS * 6`. -/
def MESH_HEXAGON_VERTICES (n : ℕ) : ℕ := HEXAGONS n * 6

/-- Rust `HexGlobe::MESH_VERTICES`. -/
def MESH_VERTICES (n : ℕ) : ℕ :=
  MESH_PENTAGON_VERTICES + MESH_HEXAGON_VERTICES n

/-- Rust `HexGlobe::MESH_TRIANGLES = PENTAGONS * 3 + HEXAGONS * 4`. -/
def MESH_TRIANGLES (n : ℕ) : ℕ := PENTAGONS * 3 + HEXAGONS n * 4

/-- Rust `HexGlobe::vertex_faces_from_template`: the twelve pentagons — the two
polar ones (`tb`), five upper-middle (`um`, seed faces 5..10) and five
lower-middle (`lm`, seed faces 10..15). -/
def vertexFaces (n : ℕ) : List ExactFace :=
  [constructPentagon (4, triCornerU n) (3, triCornerU n) (2, triCornerU n)
      (1, triCornerU n) (0, triCornerU n),
   constructPentagon (15, triCornerU n) (16, triCornerU n) (17, triCornerU n)
      (18, triCornerU n) (19, triCornerU n)]
  ++ (List.range' 5 5).map (fun face =>
      constructPentagon (face - 5, triCornerW n) ((face + 1) % 5, triCornerV n)
        (5 + (face + 1) % 5, triCornerW n) (face + 5, triCornerU n)
        (face, triCornerV n))
  ++ (List.range' 10 5).map (fun face =>
      constructPentagon (face + 5, triCornerW n) (15 + (face + 4) % 5, triCornerV n)
        (10 + (face + 4) % 5, triCornerW n) (face - 5, triCornerU n)
        (face, triCornerV n))

/-- The window-strip iterator used for every edge group: zip the first edge
run with the reverse of the second, take windows of three and every other
window. -/
def edgeStrip (e1 e2 : List ℕ) : List ((ℕ × ℕ) × (ℕ × ℕ) × (ℕ × ℕ)) :=
  stepBy2 (tw3 (e1.zip e2.reverse))

/-- Rust `HexGlobe::edge_faces_from_template`: the six seam groups (`t_t`, `t_um`,
`um_lm`, `lm_um`, `lm_b`, `b_b`), each the cartesian product of five seed-face
pairs with a window strip along the relevant boundary runs. -/
def edgeFaces (n : ℕ) : List ExactFace :=
  (cartProd ((List.range 5).map (fun face => (face, (face + 1) % 5)))
      (edgeStrip (wuList n) (uvList n))
    ++ cartProd ((List.range 5).map (fun face => (face, face + 5)))
      (edgeStrip (vwList n) (vwList n))
    ++ cartProd ((List.range' 5 5).map (fun face => (face, face + 5)))
      (edgeStrip (uvList n) (uvList n))
    ++ cartProd ((List.range' 10 5).map (fun face => (face, 5 + (face + 1) % 5)))
      (edgeStrip (wuList n) (wuList n))
    ++ cartProd ((List.range' 10 5).map (fun face => (face, face + 5)))
      (edgeStrip (vwList n) (vwList n))
    ++ cartProd ((List.range' 15 5).map (fun face => (face, 15 + (face + 1) % 5)))
      (edgeStrip (uvList n) (wuList n))).map
    (fun (p : (ℕ × ℕ) × ((ℕ × ℕ) × (ℕ × ℕ) × (ℕ × ℕ))) =>
      constructHexagon (p.1.1, p.2.1.1) (p.1.1, p.2.2.1.1) (p.1.1, p.2.2.2.1)
        (p.1.2, p.2.2.2.2) (p.1.2, p.2.2.1.2) (p.1.2, p.2.1.2))

/-- The per-face window iterator of `HexGlobe::face_faces_from_template`:
consecutive row pairs, the first row with its ends removed zipped against the
second, windows of three, every other window. -/
def faceVerticesIter (n : ℕ) : List ((ℕ × ℕ) × (ℕ × ℕ) × (ℕ × ℕ)) :=
  (tw2 ((List.range n).map (fun i => rowList n i))).flatMap
    (fun p => stepBy2 (tw3 (((p.1.drop 1).dropLast).zip p.2)))

/-- Rust `HexGlobe::face_faces_from_template`: one hexagon per seed face and
interior window. -/
def faceFaces (n : ℕ) : List ExactFace :=
  (cartProd (List.range 20) (faceVerticesIter n)).map
    (fun p =>
      constructHexagon (p.1, p.2.1.1) (p.1, p.2.2.1.1) (p.1, p.2.2.2.1)
        (p.1, p.2.2.2.2) (p.1, p.2.2.1.2) (p.1, p.2.1.2))

/-- Rust `HexGlobe::faces_from_template`: vertex faces, then edge faces, then face
faces.  `HexGlobe::new` writes this iterator into a vector of length `FACES`;
`faces_template_length` below shows the iterator yields exactly `FACES`
faces, so the vector content is exactly this list. -/
def facesFromTemplate (n : ℕ) : List ExactFace :=
  vertexFaces n ++ edgeFaces n ++ faceFaces n

/-- Rust `HexGlobe::<N>::new()`: builds the subdivision (which panics for `N = 0`,
modelled as `none`) and the face list. -/
def hexGlobeNew (n : ℕ) : Option (List ExactFace) :=
  (subdividedTriangleNew n).map (fun _ => facesFromTemplate n)

/-- Rust `HexGlobe::vertex_index_to_face_index(f, i)`: the final-polyhedron face
index owning lattice vertex `i` of seed face `f`, case-split on corner, edge
and interior vertices exactly as the Rust `match`. -/
def vertexIndexToFaceIndex (n f i : ℕ) : ℕ :=
  let v := vertexDenominator n i
  if v.y = 0 ∧ v.z = 0 then
    if f < 5 then 0
    else if f < 10 then 7 + f % 5
    else if f < 15 then 2 + f % 5
    else 1
  else if v.x = 0 ∧ v.z = 0 then
    if f < 5 then 2 + (f + 4) % 5
    else if f < 10 then 2 + f % 5
    else if f < 15 then 7 + f % 5
    else 7 + (f + 1) % 5
  else if v.x = 0 ∧ v.y = 0 then
    if f < 5 then 2 + f
    else if f < 10 then 2 + (f + 4) % 5
    else if f < 15 then 7 + (f + 1) % 5
    else 7 + f % 5
  else if v.z = 0 ∨ v.x = 0 ∨ v.y = 0 then
    let offset := SEED_VERTICES * FACES_PER_VERTEX - 1
    let e := FACES_PER_EDGE n
    if v.z = 0 then
      if f < 5 then offset + ((f + 4) % 5) * e + v.x.toNat
      else if f < 10 then offset + (10 + f % 5) * e + v.y.toNat
      else if f < 15 then offset + (10 + f % 5) * e + v.x.toNat
      else offset + (25 + f % 5) * e + v.y.toNat
    else if v.x = 0 then
      if f < 5 then offset + (5 + f) * e + v.z.toNat
      else if f < 10 then offset + (5 + f % 5) * e + v.y.toNat
      else if f < 15 then offset + (20 + f % 5) * e + v.z.toNat
      else offset + (20 + f % 5) * e + v.y.toNat
    else
      if f < 5 then offset + f * e + v.x.toNat
      else if f < 10 then offset + (15 + (f + 4) % 5) * e + v.z.toNat
      else if f < 15 then offset + (15 + f % 5) * e + v.x.toNat
      else offset + (25 + (f + 4) % 5) * e + v.z.toNat
  else
    SEED_VERTICES * FACES_PER_VERTEX + SEED_EDGES * FACES_PER_EDGE n +
      f * FACES_PER_FACE n + vertexInteriorIndexUnchecked n v

/-- Rust `HexGlobe::adjacency()`: for the `i`-th lattice edge `(a, b)` and each
seed face `f < 20`, entry `i * 20 + f` of a vector of length `EDGES * 20` is
`(vertex_index_to_face_index(f, a), vertex_index_to_face_index(f, b))`.
Since `vertex_adjacency` yields exactly `EDGES` pairs
(`vertexAdjacencyArith_length` below), every slot is written and the result
is this flat list. -/
def hexGlobeAdjacency (n : ℕ) : List (ℕ × ℕ) :=
  (vertexAdjacencyArith n).flatMap (fun p =>
    (List.range 20).map (fun f =>
      (vertexIndexToFaceIndex n f p.1, vertexIndexToFaceIndex n f p.2)))

/-- Rust `MeshFace`: a face of the output mesh, with `u32` corner indices. -/
inductive MeshFace
  | Pentagon (a b c d e : ℕ)
  | Hexagon (a b c d e f : ℕ)
  deriving DecidableEq, Repr

/-- Rust `HexGlobe::mesh_faces()`: pentagon `i` gets corners `5i..5i+4`, hexagon
`i` gets corners `60 + 6i..60 + 6i + 5`.  The Rust code writes these into a
vector of length `FACES` whose pentagon slice is `0..PENTAGONS` and hexagon
slice the rest; since it writes `PENTAGONS` pentagons and `HEXAGONS` hexagons,
the vector content is exactly this list. -/
def meshFaces (n : ℕ) : List MeshFace :=
  (List.range PENTAGONS).map (fun i =>
    MeshFace.Pentagon (i * 5) (i * 5 + 1) (i * 5 + 2) (i * 5 + 3) (i * 5 + 4))
  ++ (List.range (HEXAGONS n)).map (fun i =>
    MeshFace.Hexagon (PENTAGONS * 5 + i * 6) (PENTAGONS * 5 + i * 6 + 1)
      (PENTAGONS * 5 + i * 6 + 2) (PENTAGONS * 5 + i * 6 + 3)
      (PENTAGONS * 5 + i * 6 + 4) (PENTAGONS * 5 + i * 6 + 5))

/-- Rust `HexGlobe::mesh_triangles(faces)`: fan triangulation — three triangles
per pentagon, four per hexagon, all from the face's first corner. -/
def meshTriangles (faces : List MeshFace) : List ℕ :=
  faces.flatMap (fun face =>
    match face with
    | MeshFace.Pentagon a b c d e => [a, b, c, a, c, d, a, d, e]
    | MeshFace.Hexagon a b c d e f => [a, b, c, a, c, d, a, d, e, a, e, f])

/-- The corner indices of a mesh face in order. -/
def meshFaceCorners (face : MeshFace) : List ℕ :=
  match face with
  | MeshFace.Pentagon a b c d e => [a, b, c, d, e]
  | MeshFace.Hexagon a b c d e f => [a, b, c, d, e, f]

/-! ## Spherical placement weight check (`src/interpolation/slerp.rs`)

`slerp_n` starts with
`debug_assert!((total_weight.unwrap() - 1.0) <= f32::EPSILON)`, where
`total_weight` is the sum of the weights.  The check is modelled on exact
rationals; `f32::EPSILON = 2⁻²³`.  For dyadic weights of small magnitude
(such as the counterexample below) `f32` addition and subtraction are exact,
so the rational model agrees with the floating-point computation. -/

/-- Rust `f32::EPSILON`. -/
def f32Epsilon : ℚ := 1 / 2 ^ 23

/-- The condition of the `debug_assert!` in `slerp_n`: the assertion passes
iff `sum - 1 ≤ ε`.  Note the difference is not taken in absolute value. -/
def slerpWeightCheck (w : List ℚ) : Bool :=
  decide (w.sum - 1 ≤ f32Epsilon)

/-- The property the specification claims the assertion enforces: the sum of
the weights differs from `1` by at most machine epsilon. -/
def specWeightCheck (w : List ℚ) : Bool :=
  decide (|w.sum - 1| ≤ f32Epsilon)

/-! ## Face counts (C1, C6) -/

theorem uvList_length (n : ℕ) : (uvList n).length = 2 * n - 1 := by
  simp [uvList]

theorem vwList_length (n : ℕ) : (vwList n).length = 2 * n - 1 := by
  simp [vwList]

theorem wuList_length (n : ℕ) : (wuList n).length = 2 * n - 1 := by
  simp [wuList]

theorem edgeStrip_length (e1 e2 : List ℕ) :
    (edgeStrip e1 e2).length = (min e1.length e2.length - 2 + 1) / 2 := by
  simp [edgeStrip, stepBy2_length, tw3_length]

theorem edgeFaces_length (n : ℕ) :
    (edgeFaces n).length = SEED_EDGES * FACES_PER_EDGE n := by
  unfold edgeFaces
  rw [List.length_map]
  simp only [List.length_append, cartProd_length, edgeStrip_length,
    uvList_length, vwList_length, wuList_length, List.length_map,
    List.length_range, List.length_range']
  unfold SEED_EDGES FACES_PER_EDGE
  omega

theorem rowList_length (n i : ℕ) (h : i < n) :
    (rowList n i).length = 2 * (n - i) - 1 := by
  rw [rowList, interleave_length]
  unfold upwardRow downwardRow
  by_cases h2 : n - 1 ≤ i
  · rw [if_neg (by omega), if_pos h2]
    simp
    omega
  · rw [if_neg (by omega), if_neg h2]
    simp
    omega

theorem range'_drop (k : ℕ) :
    ∀ s m, (List.range' s m).drop k = List.range' (s + k) (m - k) := by
  induction k with
  | zero => intro s m; simp
  | succ k ih =>
    intro s m
    match m with
    | 0 => simp
    | m' + 1 =>
      rw [List.range'_succ, List.drop_succ_cons, ih (s + 1) m']
      congr 1 <;> omega

theorem zip_range' :
    ∀ (a b s t : ℕ), (List.range' s a).zip (List.range' t b) =
      (List.range (min a b)).map (fun k => (s + k, t + k)) := by
  intro a
  induction a with
  | zero => intro b s t; simp
  | succ a ih =>
    intro b s t
    match b with
    | 0 => simp
    | b' + 1 =>
      rw [List.range'_succ, List.range'_succ, List.zip_cons_cons,
        ih b' (s + 1) (t + 1)]
      have hmin : min (a + 1) (b' + 1) = min a b' + 1 := by omega
      rw [hmin, List.range_succ_eq_map]
      simp only [List.map_cons, List.map_map, Nat.add_zero]
      congr 1
      refine List.map_congr_left (fun k _ => ?_)
      simp only [Function.comp_apply, Prod.mk.injEq]
      omega

theorem tw2_range' (s m : ℕ) :
    tw2 (List.range' s m) =
      (List.range (m - 1)).map (fun k => (s + k, s + 1 + k)) := by
  unfold tw2
  rw [range'_drop 1 s m, zip_range']
  have hmin : min m (m - 1) = m - 1 := by omega
  rw [hmin]

theorem sum_range_desc (m : ℕ) :
    ((List.range m).map (fun i => m - 1 - i)).sum * 2 = m * (m - 1) := by
  induction m with
  | zero => simp
  | succ m ih =>
    rw [List.range_succ_eq_map]
    simp only [List.map_cons, List.sum_cons, List.map_map]
    have hcomp : ((fun i => m + 1 - 1 - i) ∘ Nat.succ) = fun i => m - 1 - i := by
      funext i
      simp only [Function.comp_apply]
      omega
    rw [hcomp]
    have hhead : m + 1 - 1 - 0 = m := by omega
    rw [hhead, Nat.add_mul, ih]
    rcases Nat.eq_zero_or_pos m with rfl | hm
    · simp
    · obtain ⟨k, rfl⟩ : ∃ k, m = k + 1 := ⟨m - 1, by omega⟩
      have h1 : k + 1 - 1 = k := by omega
      have h2 : k + 1 + 1 - 1 = k + 1 := by omega
      rw [h1, h2]
      ring

theorem tw2_map_range {β : Type} (f : ℕ → β) (n : ℕ) :
    tw2 ((List.range n).map f) =
      (List.range (n - 1)).map (fun k => (f k, f (k + 1))) := by
  unfold tw2
  rw [← List.map_drop, List.zip_map, List.range_eq_range',
    range'_drop 1 0 n, zip_range']
  have hmin : min n (n - 1) = n - 1 := by omega
  rw [hmin, List.map_map]
  refine List.map_congr_left (fun k _ => ?_)
  simp only [Function.comp_apply, Prod.map_apply, Nat.zero_add]
  rw [Nat.add_comm 1 k]

theorem faceVerticesIter_length (n : ℕ) :
    (faceVerticesIter n).length = (n - 1) * (n - 2) / 2 := by
  have hform : (faceVerticesIter n).length =
      ((List.range (n - 1)).map (fun k =>
        (stepBy2 (tw3 (((rowList n k).drop 1).dropLast.zip
          (rowList n (k + 1))))).length)).sum := by
    unfold faceVerticesIter
    rw [tw2_map_range (fun i => rowList n i) n, List.length_flatMap,
      List.map_map]
    rfl
  have key : ((List.range (n - 1)).map (fun k =>
      (stepBy2 (tw3 (((rowList n k).drop 1).dropLast.zip
        (rowList n (k + 1))))).length)).sum =
      ((List.range (n - 1)).map (fun k => (n - 1) - 1 - k)).sum := by
    congr 1
    refine List.map_congr_left (fun k hk => ?_)
    have hk' : k < n - 1 := List.mem_range.mp hk
    rw [stepBy2_length, tw3_length, List.length_zip, List.length_dropLast,
      List.length_drop, rowList_length n k (by omega),
      rowList_length n (k + 1) (by omega)]
    omega
  rw [hform, key]
  have h2 : (n - 1) * ((n - 1) - 1) = (n - 1) * (n - 2) := by
    have h3 : (n - 1) - 1 = n - 2 := by omega
    rw [h3]
  refine (Nat.div_eq_of_eq_mul_left (by norm_num) ?_).symm
  rw [← h2, ← sum_range_desc (n - 1)]

theorem vertexFaces_length (n : ℕ) : (vertexFaces n).length = PENTAGONS := by
  simp [vertexFaces, PENTAGONS, SEED_VERTICES]

theorem faceFaces_length (n : ℕ) :
    (faceFaces n).length = SEED_FACES * FACES_PER_FACE n := by
  unfold faceFaces
  rw [List.length_map, cartProd_length, List.length_range,
    faceVerticesIter_length]
  unfold SEED_FACES FACES_PER_FACE
  congr 2
  rcases Nat.lt_or_ge n 2 with h | h
  · have h1 : n - 1 = 0 := by omega
    rw [h1]
    simp
  · rw [Nat.max_eq_left h]

theorem faces_template_length (n : ℕ) :
    (facesFromTemplate n).length = FACES n := by
  rw [facesFromTemplate, List.length_append, List.length_append,
    vertexFaces_length, edgeFaces_length, faceFaces_length, FACES, HEXAGONS]
  omega

/-- C1: for every `N ≥ 1` the associated constant `FACES` equals the closed
form `12 + 30(N−1) + 20·(N−1)(N−2)/2`, and `faces_from_template` (written by
`HexGlobe::new` into the faces vector of length `FACES`) yields exactly
`FACES` faces. -/
theorem face_count_closed_form (n : ℕ) (hn : 1 ≤ n) :
    FACES n = 12 + 30 * (n - 1) + 20 * ((n - 1) * (n - 2) / 2) ∧
    (facesFromTemplate n).length = FACES n := by
  have hmax : (n - 1) * (max n 2 - 2) = (n - 1) * (n - 2) := by
    rcases Nat.lt_or_ge n 2 with h | h
    · have hone : n = 1 := by omega
      subst hone; simp
    · rw [Nat.max_eq_left h]
  refine ⟨?_, faces_template_length n⟩
  unfold FACES PENTAGONS HEXAGONS SEED_VERTICES SEED_EDGES SEED_FACES
    FACES_PER_EDGE FACES_PER_FACE
  rw [hmax]
  omega

/-- Witness for C1 at `N = 4`: `12 + 30·3 + 20·3 = 162` faces. -/
theorem face_count_closed_form_witness :
    FACES 4 = 12 + 30 * (4 - 1) + 20 * ((4 - 1) * (4 - 2) / 2) ∧
    (facesFromTemplate 4).length = FACES 4 :=
  face_count_closed_form 4 (by norm_num)

/-- Whether an `ExactFace` is a pentagon. -/
def isPentagon : ExactFace → Bool
  | ExactFace.Pentagon _ => true
  | ExactFace.Hexagon _ => false

theorem vertexFaces_all_pentagon (n : ℕ) :
    ∀ face ∈ vertexFaces n, isPentagon face = true := by
  intro face hface
  simp only [vertexFaces, List.mem_append, List.mem_cons, List.mem_map,
    List.mem_singleton, List.not_mem_nil, or_false] at hface
  rcases hface with ((rfl | rfl) | ⟨f, _, rfl⟩) | ⟨f, _, rfl⟩ <;> rfl

theorem edgeFaces_all_hexagon (n : ℕ) :
    ∀ face ∈ edgeFaces n, isPentagon face = false := by
  intro face hface
  simp only [edgeFaces, List.mem_map] at hface
  obtain ⟨p, _, rfl⟩ := hface
  rfl

theorem faceFaces_all_hexagon (n : ℕ) :
    ∀ face ∈ faceFaces n, isPentagon face = false := by
  intro face hface
  simp only [faceFaces, List.mem_map] at hface
  obtain ⟨p, _, rfl⟩ := hface
  rfl

/-- C6: the face list is ordered vertex faces (pentagons), then edge faces,
then face faces (hexagons): the vertex-face generator emits only pentagons,
the edge- and face-face generators only hexagons, and in the assembled list
the first `PENTAGONS = 12` entries are pentagons while every later entry is a
hexagon. -/
theorem faces_ordered_pentagons_first (n : ℕ) (_hn : 1 ≤ n) :
    (∀ face ∈ vertexFaces n, isPentagon face = true) ∧
    (∀ face ∈ edgeFaces n, isPentagon face = false) ∧
    (∀ face ∈ faceFaces n, isPentagon face = false) ∧
    (∀ face ∈ (facesFromTemplate n).take PENTAGONS, isPentagon face = true) ∧
    (∀ face ∈ (facesFromTemplate n).drop PENTAGONS, isPentagon face = false) := by
  refine ⟨vertexFaces_all_pentagon n, edgeFaces_all_hexagon n,
    faceFaces_all_hexagon n, ?_, ?_⟩
  · have hsplit : facesFromTemplate n =
        vertexFaces n ++ (edgeFaces n ++ faceFaces n) := by
      rw [facesFromTemplate, List.append_assoc]
    rw [hsplit, List.take_left' (vertexFaces_length n)]
    exact vertexFaces_all_pentagon n
  · have hsplit : facesFromTemplate n =
        vertexFaces n ++ (edgeFaces n ++ faceFaces n) := by
      rw [facesFromTemplate, List.append_assoc]
    rw [hsplit, List.drop_left' (vertexFaces_length n)]
    intro face hface
    rcases List.mem_append.mp hface with h | h
    · exact edgeFaces_all_hexagon n face h
    · exact faceFaces_all_hexagon n face h

/-- Witness for C6 at `N = 2`: the first vertex face is a pentagon. -/
theorem faces_ordered_pentagons_first_witness :
    isPentagon (constructPentagon (4, triCornerU 2) (3, triCornerU 2)
      (2, triCornerU 2) (1, triCornerU 2) (0, triCornerU 2)) = true :=
  (faces_ordered_pentagons_first 2 (by norm_num)).1 _ (by decide)

/-! ## Construction guard (C8) -/

/-- C8: constructing at level `N = 0` fails fast — the `assert_ne!` in
`SubdividedTriangle::new` fires (modelled as `none`), and so does
`HexGlobe::new`, which calls it; for every `N ≥ 1` both succeed. -/
theorem construction_rejects_zero :
    subdividedTriangleNew 0 = none ∧ hexGlobeNew 0 = none ∧
    ∀ n, 1 ≤ n → (subdividedTriangleNew n).isSome = true ∧
      (hexGlobeNew n).isSome = true := by
  refine ⟨rfl, rfl, fun n hn => ?_⟩
  have hnz : ¬(n = 0) := by omega
  constructor
  · simp [subdividedTriangleNew, hnz]
  · simp [hexGlobeNew, subdividedTriangleNew, hnz]

/-- Witness for C8: `N = 4` succeeds (the `N = 0` parts are closed). -/
theorem construction_rejects_zero_witness :
    (subdividedTriangleNew 4).isSome = true ∧ (hexGlobeNew 4).isSome = true :=
  construction_rejects_zero.2.2 4 (by norm_num)

/-! ## Weight-check divergence (C9)

The debug assertion in `slerp_n` compares `total_weight - 1.0 ≤ ε` without an
absolute value, so any weight vector whose sum is below `1` passes the check
even though the spec (and the assertion's own message, "Sum of weights must
be equal to 1.0.") requires the sum to be within `ε` of `1`. -/

/-- C9 (divergence witness): the weights `[0.25, 0.25]` sum to `0.5`, which
differs from `1` by far more than machine epsilon — the specified check
rejects them — yet the assertion in the code accepts them.  All values
involved are small dyadic rationals, for which `f32` arithmetic is exact. -/
theorem slerp_weight_check_one_sided :
    slerpWeightCheck [(1 : ℚ)/4, 1/4] = true ∧
    specWeightCheck [(1 : ℚ)/4, 1/4] = false := by
  constructor
  · simp only [slerpWeightCheck, f32Epsilon, List.sum_cons, List.sum_nil]
    norm_num
  · simp only [specWeightCheck, f32Epsilon, List.sum_cons, List.sum_nil]
    rw [decide_eq_false_iff_not]
    rw [abs_sub_comm]
    rw [abs_of_nonneg (by norm_num)]
    norm_num

/-! ## Adjacency duplicates (C2) and the `N = 1` scenario (C3) -/

/-- C2 (divergence witness): at `N = 1` the adjacency list has
`EDGES · 20 = 60` entries; normalised to unordered pairs it is **not**
duplicate-free — there are exactly 30 distinct pairs, each emitted twice
(once from each seed face incident to the shared seam), contradicting the
claim (and the method's own doc comment) that no duplicate edges appear. -/
theorem adjacency_emits_duplicates :
    (hexGlobeAdjacency 1).length = 60 ∧
    nEdges 1 * 20 = 60 ∧
    ¬ (((hexGlobeAdjacency 1).map
        (fun p => (min p.1 p.2, max p.1 p.2))).Nodup) ∧
    ((((hexGlobeAdjacency 1).map
        (fun p => (min p.1 p.2, max p.1 p.2))).dedup).length = 30) ∧
    ((((hexGlobeAdjacency 1).map
        (fun p => (min p.1 p.2, max p.1 p.2))).dedup).all
      (fun q => ((hexGlobeAdjacency 1).map
        (fun p => (min p.1 p.2, max p.1 p.2))).count q = 2)) = true := by
  decide

/-- C3 (counterexample): at `N = 1` the claimed scenario fails —
`MESH_TRIANGLES` is `36`, not `20`, and `adjacency` returns `60` pairs, not
`30`. -/
theorem n1_scenario_counterexample :
    ¬(((facesFromTemplate 1).filter isPentagon).length = 12 ∧
      ((facesFromTemplate 1).filter (fun f => ! isPentagon f)).length = 0 ∧
      MESH_TRIANGLES 1 = 20 ∧
      (hexGlobeAdjacency 1).length = 30) := by
  decide

/-- C3 (amended): at `N = 1` the face list has 12 pentagons and 0 hexagons,
`mesh_triangles` describes `36` triangles (three per pentagon), and
`adjacency` returns `60` pairs among which `30` distinct unordered pairs
appear. -/
theorem n1_scenario :
    ((facesFromTemplate 1).filter isPentagon).length = 12 ∧
    ((facesFromTemplate 1).filter (fun f => ! isPentagon f)).length = 0 ∧
    MESH_TRIANGLES 1 = 36 ∧
    (meshTriangles (meshFaces 1)).length = 36 * 3 ∧
    (hexGlobeAdjacency 1).length = 60 ∧
    ((((hexGlobeAdjacency 1).map
        (fun p => (min p.1 p.2, max p.1 p.2))).dedup).length = 30) := by
  decide

/-! ## Mesh index buffers (C10) -/

theorem flatMap_map_comm {α β γ : Type} (l : List α) (f : α → β)
    (g : β → List γ) :
    (l.map f).flatMap g = l.flatMap (fun a => g (f a)) := by
  induction l with
  | nil => rfl
  | cons a l ih => simp [ih]

theorem range'_five (s : ℕ) :
    List.range' s 5 = [s, s + 1, s + 2, s + 3, s + 4] := by
  simp [List.range'_succ]

theorem range'_six (s : ℕ) :
    List.range' s 6 = [s, s + 1, s + 2, s + 3, s + 4, s + 5] := by
  simp [List.range'_succ]

theorem flatMap_consec5 :
    ∀ m, (List.range m).flatMap
      (fun i => [i * 5, i * 5 + 1, i * 5 + 2, i * 5 + 3, i * 5 + 4]) =
      List.range' 0 (m * 5) := by
  intro m
  induction m with
  | zero => simp
  | succ m ih =>
    rw [List.range_succ, List.flatMap_append, ih]
    simp only [List.flatMap_cons, List.flatMap_nil, List.append_nil]
    rw [← range'_five (m * 5)]
    have happ := List.range'_append_1 0 (m * 5) 5
    simp only [Nat.zero_add] at happ
    rw [happ]
    congr 1
    omega

theorem flatMap_consec6 (a : ℕ) :
    ∀ m, (List.range m).flatMap (fun i =>
      [a + i * 6, a + i * 6 + 1, a + i * 6 + 2, a + i * 6 + 3,
        a + i * 6 + 4, a + i * 6 + 5]) =
      List.range' a (m * 6) := by
  intro m
  induction m with
  | zero => simp
  | succ m ih =>
    rw [List.range_succ, List.flatMap_append, ih]
    simp only [List.flatMap_cons, List.flatMap_nil, List.append_nil]
    rw [← range'_six (a + m * 6)]
    rw [List.range'_append_1 a (m * 6) 6]
    congr 1
    omega

/-- C10: the triangle buffer always indexes the vertex buffer in bounds — the
corner indices assigned by `mesh_faces` are exactly `0, 1, …,
MESH_VERTICES − 1` in order (pentagon `i` owns the five consecutive indices
from `5i`, hexagon `j` the six from `60 + 6j`), and every entry of
`mesh_triangles(mesh_faces())` is strictly below `MESH_VERTICES`. -/
theorem mesh_triangles_in_bounds (n : ℕ) (_hn : 1 ≤ n) :
    ((meshFaces n).flatMap meshFaceCorners = List.range (MESH_VERTICES n)) ∧
    (∀ t ∈ meshTriangles (meshFaces n), t < MESH_VERTICES n) := by
  constructor
  · unfold meshFaces
    rw [List.flatMap_append, flatMap_map_comm, flatMap_map_comm]
    have hpent : (List.range PENTAGONS).flatMap (fun i =>
        meshFaceCorners (MeshFace.Pentagon (i * 5) (i * 5 + 1) (i * 5 + 2)
          (i * 5 + 3) (i * 5 + 4))) = List.range' 0 (PENTAGONS * 5) :=
      flatMap_consec5 PENTAGONS
    have hhex : (List.range (HEXAGONS n)).flatMap (fun i =>
        meshFaceCorners (MeshFace.Hexagon (PENTAGONS * 5 + i * 6)
          (PENTAGONS * 5 + i * 6 + 1) (PENTAGONS * 5 + i * 6 + 2)
          (PENTAGONS * 5 + i * 6 + 3) (PENTAGONS * 5 + i * 6 + 4)
          (PENTAGONS * 5 + i * 6 + 5))) =
        List.range' (PENTAGONS * 5) (HEXAGONS n * 6) :=
      flatMap_consec6 (PENTAGONS * 5) (HEXAGONS n)
    rw [hpent, hhex]
    have happ := List.range'_append_1 0 (PENTAGONS * 5) (HEXAGONS n * 6)
    simp only [Nat.zero_add] at happ
    rw [happ, List.range_eq_range']
    congr 1
    unfold MESH_VERTICES MESH_PENTAGON_VERTICES MESH_HEXAGON_VERTICES
    omega
  · intro t ht
    unfold meshTriangles at ht
    obtain ⟨face, hface, hin⟩ := List.mem_flatMap.mp ht
    unfold meshFaces at hface
    rcases List.mem_append.mp hface with h | h
    · obtain ⟨i, hi, rfl⟩ := List.mem_map.mp h
      have hi' : i < PENTAGONS := List.mem_range.mp hi
      have hP : PENTAGONS = 12 := rfl
      simp only [List.mem_cons, List.not_mem_nil, or_false] at hin
      unfold MESH_VERTICES MESH_PENTAGON_VERTICES MESH_HEXAGON_VERTICES
      rcases hin with rfl | rfl | rfl | rfl | rfl | rfl | rfl | rfl | rfl <;>
        omega
    · obtain ⟨i, hi, rfl⟩ := List.mem_map.mp h
      have hi' : i < HEXAGONS n := List.mem_range.mp hi
      simp only [List.mem_cons, List.not_mem_nil, or_false] at hin
      unfold MESH_VERTICES MESH_PENTAGON_VERTICES MESH_HEXAGON_VERTICES
      rcases hin with rfl | rfl | rfl | rfl | rfl | rfl | rfl | rfl | rfl |
        rfl | rfl | rfl <;> omega

/-- Witness for C10 at `N = 2`. -/
theorem mesh_triangles_in_bounds_witness :
    ((meshFaces 2).flatMap meshFaceCorners = List.range (MESH_VERTICES 2)) ∧
    (∀ t ∈ meshTriangles (meshFaces 2), t < MESH_VERTICES 2) :=
  mesh_triangles_in_bounds 2 (by norm_num)

/-! ## Vertex-adjacency equivalence (C5)

The arithmetic row-based `vertex_adjacency` of `src/subdivided_triangle.rs`
is shown to be a permutation of the triangle-edge-derived, deduplicated
variant of `src/subdivision/subdivided_triangle.rs`, and to contain no
duplicates itself.  Both lists are characterised by the same coordinate
predicate `AdjPred`. -/

theorem vertexRowStart_succ (n x : ℕ) :
    vertexRowStart n (x + 1) = vertexRowStart n x + (n + 1 - x) := by
  unfold vertexRowStart
  rw [List.range_succ, List.map_append, List.sum_append]
  simp

theorem vertexRowStart_arith (n x : ℕ) (hx : x ≤ n) :
    nVertices n - (n + 1 - x) * ((n + 1 - x) + 1) / 2 = vertexRowStart n x := by
  have hb : Even ((n + 1 - x) * ((n + 1 - x) + 1)) := Nat.even_mul_succ_self _
  have hkey : (n + 1) * (n + 2) =
      (n + 1 - x) * ((n + 1 - x) + 1) + vertexRowStart n x * 2 := by
    rw [vertexRowStart_mul_two n x (by omega)]
    obtain ⟨k, hk⟩ : ∃ k, n + 1 = x + k := ⟨n + 1 - x, by omega⟩
    have e1 : n + 1 - x = k := by omega
    have e2 : 2 * (n + 1) + 1 - x = x + 2 * k + 1 := by omega
    have e3 : n + 2 = x + k + 1 := by omega
    rw [e1, e2, e3, hk]
    ring
  obtain ⟨c, hc⟩ := hb
  unfold nVertices
  omega

/-- The closed-form vertex index as row start plus `y`; extracted form of the
computation inside `compute_vertex_index_unchecked`. -/
theorem cviu_eq (n x y z : ℕ) (h : x + y + z = n) :
    computeVertexIndexUnchecked n (natVec x y z) = vertexRowStart n x + y := by
  have hx : x ≤ n := by omega
  unfold computeVertexIndexUnchecked
  have hA : (natVec x y z).x * (2 * ((n : ℤ) + 1) + 1 - (natVec x y z).x) =
      ((x * (2 * (n + 1) + 1 - x) : ℕ) : ℤ) := by
    simp only [natVec]
    push_cast [Nat.cast_sub (show x ≤ 2 * (n + 1) + 1 by omega)]
    ring
  rw [hA]
  have htd : Int.tdiv ((x * (2 * (n + 1) + 1 - x) : ℕ) : ℤ) 2 =
      ((x * (2 * (n + 1) + 1 - x) / 2 : ℕ) : ℤ) := by
    exact_mod_cast Int.ofNat_tdiv (x * (2 * (n + 1) + 1 - x)) 2
  rw [htd, vertexRowStart_closed n x (by omega)]
  simp only [natVec]
  omega

theorem natVec_add_du (x y z : ℕ) (hx : 1 ≤ x) :
    natVec x y z + du = natVec (x - 1) (y + 1) z := by
  show IVec3.add (natVec x y z) du = natVec (x - 1) (y + 1) z
  unfold IVec3.add natVec du
  simp only [IVec3.mk.injEq]
  refine ⟨?_, by push_cast; ring, by ring⟩
  omega

theorem natVec_add_dv (x y z : ℕ) (hx : 1 ≤ x) :
    natVec x y z + dv = natVec (x - 1) y (z + 1) := by
  show IVec3.add (natVec x y z) dv = natVec (x - 1) y (z + 1)
  unfold IVec3.add natVec dv
  simp only [IVec3.mk.injEq]
  refine ⟨?_, by ring, by push_cast; ring⟩
  omega

theorem natVec_sub_du (x y z : ℕ) (hy : 1 ≤ y) :
    natVec x y z - du = natVec (x + 1) (y - 1) z := by
  show IVec3.sub (natVec x y z) du = natVec (x + 1) (y - 1) z
  unfold IVec3.sub natVec du
  simp only [IVec3.mk.injEq]
  refine ⟨by push_cast; ring, ?_, by ring⟩
  omega

theorem natVec_sub_dv (x y z : ℕ) (hz : 1 ≤ z) :
    natVec x y z - dv = natVec (x + 1) y (z - 1) := by
  show IVec3.sub (natVec x y z) dv = natVec (x + 1) y (z - 1)
  unfold IVec3.sub natVec dv
  simp only [IVec3.mk.injEq]
  refine ⟨by push_cast; ring, by ring, ?_⟩
  omega

theorem mem_verticesList (n : ℕ) (v : IVec3) :
    v ∈ verticesList n ↔ ∃ x y, x + y ≤ n ∧ v = natVec x y (n - x - y) := by
  rw [verticesList_eq_rows]
  unfold verticesRows
  simp only [List.mem_flatMap, List.mem_map, List.mem_range]
  constructor
  · rintro ⟨x, hx, y, hy, rfl⟩
    exact ⟨x, y, by omega, rfl⟩
  · rintro ⟨x, y, hxy, rfl⟩
    exact ⟨x, by omega, y, by omega, rfl⟩

/-- Coordinate characterisation of the undirected lattice edges, as the three
families of the triangular lattice: horizontal (`(x,k)–(x,k+1)`), vertical
(`(x,k)–(x+1,k)`) and diagonal (`(x,k+1)–(x+1,k)`) in row-start/offset
form. -/
def AdjPred (n : ℕ) (p : ℕ × ℕ) : Prop :=
  ∃ x k, x < n ∧ k < n - x ∧
    (p = (vertexRowStart n x + k, vertexRowStart n x + k + 1) ∨
     p = (vertexRowStart n x + k, vertexRowStart n (x + 1) + k) ∨
     p = (vertexRowStart n x + k + 1, vertexRowStart n (x + 1) + k))

theorem arithRow_eq (n x : ℕ) (hx : x < n) :
    arithRow n x =
      ((List.range (n - x)).map (fun k =>
        (vertexRowStart n x + k, vertexRowStart n x + k + 1)))
      ++ ((List.range (n - x)).map (fun k =>
        (vertexRowStart n x + k, vertexRowStart n (x + 1) + k)))
      ++ ((List.range (n - x)).map (fun k =>
        (vertexRowStart n x + k + 1, vertexRowStart n (x + 1) + k))) := by
  have h1 : tw2 (List.range' (vertexRowStart n x) (n + 1 - x)) =
      (List.range (n - x)).map (fun k =>
        (vertexRowStart n x + k, vertexRowStart n x + k + 1)) := by
    rw [tw2_range']
    have hc : n + 1 - x - 1 = n - x := by omega
    rw [hc]
    refine List.map_congr_left (fun k _ => ?_)
    simp only [Prod.mk.injEq]
    constructor <;> first | trivial | omega
  have h2 : (List.range' (vertexRowStart n x) (n + 1 - x - 1)).zip
      (List.range' (vertexRowStart n x + (n + 1 - x)) (n + 1 - x - 1)) =
      (List.range (n - x)).map (fun k =>
        (vertexRowStart n x + k, vertexRowStart n (x + 1) + k)) := by
    rw [zip_range']
    have hc : min (n + 1 - x - 1) (n + 1 - x - 1) = n - x := by omega
    rw [hc]
    refine List.map_congr_left (fun k _ => ?_)
    simp only [Prod.mk.injEq]
    have hs := vertexRowStart_succ n x
    constructor <;> first | trivial | omega
  have h3 : (List.range' (vertexRowStart n x + 1) (n + 1 - x - 1)).zip
      (List.range' (vertexRowStart n x + (n + 1 - x)) (n + 1 - x - 1)) =
      (List.range (n - x)).map (fun k =>
        (vertexRowStart n x + k + 1, vertexRowStart n (x + 1) + k)) := by
    rw [zip_range']
    have hc : min (n + 1 - x - 1) (n + 1 - x - 1) = n - x := by omega
    rw [hc]
    refine List.map_congr_left (fun k _ => ?_)
    simp only [Prod.mk.injEq]
    have hs := vertexRowStart_succ n x
    constructor <;> first | trivial | omega
  show tw2 (List.range' (nVertices n - (n + 1 - x) * ((n + 1 - x) + 1) / 2)
        (n + 1 - x))
      ++ _ ++ _ = _
  rw [vertexRowStart_arith n x (by omega), h1, h2, h3]

theorem mem_vertexAdjacencyArith (n : ℕ) (p : ℕ × ℕ) :
    p ∈ vertexAdjacencyArith n ↔ AdjPred n p := by
  unfold vertexAdjacencyArith AdjPred
  rw [List.mem_flatMap]
  constructor
  · rintro ⟨x, hx, hp⟩
    have hx' : x < n := List.mem_range.mp hx
    rw [arithRow_eq n x hx'] at hp
    rcases List.mem_append.mp hp with hp2 | hp2
    · rcases List.mem_append.mp hp2 with hp3 | hp3
      · obtain ⟨k, hk, rfl⟩ := List.mem_map.mp hp3
        exact ⟨x, k, hx', List.mem_range.mp hk, Or.inl rfl⟩
      · obtain ⟨k, hk, rfl⟩ := List.mem_map.mp hp3
        exact ⟨x, k, hx', List.mem_range.mp hk, Or.inr (Or.inl rfl)⟩
    · obtain ⟨k, hk, rfl⟩ := List.mem_map.mp hp2
      exact ⟨x, k, hx', List.mem_range.mp hk, Or.inr (Or.inr rfl)⟩
  · rintro ⟨x, k, hx, hk, hor⟩
    refine ⟨x, List.mem_range.mpr hx, ?_⟩
    rw [arithRow_eq n x hx]
    rcases hor with rfl | rfl | rfl
    · exact List.mem_append.mpr (Or.inl (List.mem_append.mpr (Or.inl
        (List.mem_map.mpr ⟨k, List.mem_range.mpr hk, rfl⟩))))
    · exact List.mem_append.mpr (Or.inl (List.mem_append.mpr (Or.inr
        (List.mem_map.mpr ⟨k, List.mem_range.mpr hk, rfl⟩))))
    · exact List.mem_append.mpr (Or.inr
        (List.mem_map.mpr ⟨k, List.mem_range.mpr hk, rfl⟩))

theorem mem_trianglesUpListSub (n : ℕ) (t : Triangle) :
    t ∈ trianglesUpListSub n ↔ ∃ x y z, x + y + z = n ∧ 1 ≤ x ∧
      t = ⟨vertexRowStart n x + y, vertexRowStart n (x - 1) + (y + 1),
           vertexRowStart n (x - 1) + y⟩ := by
  unfold trianglesUpListSub
  rw [List.mem_map]
  constructor
  · rintro ⟨v, hv, rfl⟩
    rw [List.mem_filter] at hv
    obtain ⟨hvmem, hcond⟩ := hv
    obtain ⟨x, y, hxy, rfl⟩ := (mem_verticesList n v).mp hvmem
    simp only [natVec, decide_eq_true_eq] at hcond
    have hx1 : 1 ≤ x := by omega
    refine ⟨x, y, n - x - y, by omega, hx1, ?_⟩
    rw [natVec_add_du x y (n - x - y) hx1, natVec_add_dv x y (n - x - y) hx1]
    rw [cviu_eq n x y (n - x - y) (by omega),
      cviu_eq n (x - 1) (y + 1) (n - x - y) (by omega),
      cviu_eq n (x - 1) y ((n - x - y) + 1) (by omega)]
  · rintro ⟨x, y, z, hsum, hx1, rfl⟩
    refine ⟨natVec x y z, ?_, ?_⟩
    · rw [List.mem_filter]
      constructor
      · refine (mem_verticesList n _).mpr ⟨x, y, by omega, ?_⟩
        have hz : n - x - y = z := by omega
        rw [hz]
      · simp only [natVec, decide_eq_true_eq]
        refine ⟨?_, ?_, ?_⟩ <;> [skip; skip; skip] <;> omega
    · rw [natVec_add_du x y z hx1, natVec_add_dv x y z hx1,
        cviu_eq n x y z hsum, cviu_eq n (x - 1) (y + 1) z (by omega),
        cviu_eq n (x - 1) y (z + 1) (by omega)]

theorem mem_trianglesDownListSub (n : ℕ) (t : Triangle) :
    t ∈ trianglesDownListSub n ↔ ∃ x y z, x + y + z = n ∧ 1 ≤ y ∧ 1 ≤ z ∧
      t = ⟨vertexRowStart n x + y, vertexRowStart n (x + 1) + (y - 1),
           vertexRowStart n (x + 1) + y⟩ := by
  unfold trianglesDownListSub
  rw [List.mem_map]
  constructor
  · rintro ⟨v, hv, rfl⟩
    rw [List.mem_filter] at hv
    obtain ⟨hvmem, hcond⟩ := hv
    obtain ⟨x, y, hxy, rfl⟩ := (mem_verticesList n v).mp hvmem
    simp only [natVec, decide_eq_true_eq] at hcond
    have hy1 : 1 ≤ y := by omega
    have hz1 : 1 ≤ n - x - y := by omega
    refine ⟨x, y, n - x - y, by omega, hy1, hz1, ?_⟩
    rw [natVec_sub_du x y (n - x - y) hy1, natVec_sub_dv x y (n - x - y) hz1]
    rw [cviu_eq n x y (n - x - y) (by omega),
      cviu_eq n (x + 1) (y - 1) (n - x - y) (by omega),
      cviu_eq n (x + 1) y ((n - x - y) - 1) (by omega)]
  · rintro ⟨x, y, z, hsum, hy1, hz1, rfl⟩
    refine ⟨natVec x y z, ?_, ?_⟩
    · rw [List.mem_filter]
      constructor
      · refine (mem_verticesList n _).mpr ⟨x, y, by omega, ?_⟩
        have hz : n - x - y = z := by omega
        rw [hz]
      · simp only [natVec, decide_eq_true_eq]
        refine ⟨?_, ?_, ?_⟩ <;> [skip; skip; skip] <;> omega
    · rw [natVec_sub_du x y z hy1, natVec_sub_dv x y z hz1,
        cviu_eq n x y z hsum, cviu_eq n (x + 1) (y - 1) z (by omega),
        cviu_eq n (x + 1) y (z - 1) (by omega)]

theorem mem_vertexAdjacencyDedup (n : ℕ) (p : ℕ × ℕ) :
    p ∈ vertexAdjacencyDedup n ↔ AdjPred n p := by
  unfold vertexAdjacencyDedup
  rw [mem_uniq, List.mem_map]
  constructor
  · rintro ⟨q, hq, rfl⟩
    obtain ⟨t, ht, hqt⟩ := List.mem_flatMap.mp hq
    simp only [List.mem_cons, List.not_mem_nil, or_false] at hqt
    rcases List.mem_append.mp ht with hup | hdn
    · obtain ⟨x, y, z, hsum, hx1, rfl⟩ := (mem_trianglesUpListSub n t).mp hup
      have hs := vertexRowStart_succ n (x - 1)
      have hx' : x - 1 + 1 = x := by omega
      rw [hx'] at hs
      rcases hqt with rfl | rfl | rfl
      · refine ⟨x - 1, y, by omega, by omega, Or.inr (Or.inr ?_)⟩
        rw [hx']
        simp only [Prod.mk.injEq]
        constructor <;> omega
      · refine ⟨x - 1, y, by omega, by omega, Or.inl ?_⟩
        simp only [Prod.mk.injEq]
        constructor <;> omega
      · refine ⟨x - 1, y, by omega, by omega, Or.inr (Or.inl ?_)⟩
        rw [hx']
        simp only [Prod.mk.injEq]
        constructor <;> omega
    · obtain ⟨x, y, z, hsum, hy1, hz1, rfl⟩ :=
        (mem_trianglesDownListSub n t).mp hdn
      have hs := vertexRowStart_succ n x
      rcases hqt with rfl | rfl | rfl
      · refine ⟨x, y - 1, by omega, by omega, Or.inr (Or.inr ?_)⟩
        simp only [Prod.mk.injEq]
        constructor <;> omega
      · refine ⟨x + 1, y - 1, by omega, by omega, Or.inl ?_⟩
        simp only [Prod.mk.injEq]
        constructor <;> omega
      · refine ⟨x, y, by omega, by omega, Or.inr (Or.inl ?_)⟩
        simp only [Prod.mk.injEq]
        constructor <;> omega
  · rintro ⟨x, k, hx, hk, hor⟩
    have hs := vertexRowStart_succ n x
    have htmem : (⟨vertexRowStart n (x + 1) + k,
        vertexRowStart n (x + 1 - 1) + (k + 1),
        vertexRowStart n (x + 1 - 1) + k⟩ : Triangle) ∈
        trianglesUpListSub n ++ trianglesDownListSub n :=
      List.mem_append.mpr (Or.inl ((mem_trianglesUpListSub n _).mpr
        ⟨x + 1, k, n - x - 1 - k, by omega, by omega, rfl⟩))
    have hx'' : x + 1 - 1 = x := by omega
    rw [hx''] at htmem
    rcases hor with rfl | rfl | rfl
    · refine ⟨(vertexRowStart n x + (k + 1), vertexRowStart n x + k),
        List.mem_flatMap.mpr ⟨_, htmem, ?_⟩, ?_⟩
      · simp
      · simp only [Prod.mk.injEq]
        constructor <;> omega
    · refine ⟨(vertexRowStart n x + k, vertexRowStart n (x + 1) + k),
        List.mem_flatMap.mpr ⟨_, htmem, ?_⟩, ?_⟩
      · simp
      · simp only [Prod.mk.injEq]
        constructor <;> omega
    · refine ⟨(vertexRowStart n (x + 1) + k, vertexRowStart n x + (k + 1)),
        List.mem_flatMap.mpr ⟨_, htmem, ?_⟩, ?_⟩
      · simp
      · simp only [Prod.mk.injEq]
        constructor <;> omega

theorem vertexRowStart_mono (n : ℕ) : ∀ {a b : ℕ}, a ≤ b →
    vertexRowStart n a ≤ vertexRowStart n b := by
  intro a b
  induction b with
  | zero => intro h; interval_cases a; exact Nat.le_refl _
  | succ b ih =>
    intro h
    rcases Nat.lt_or_ge a (b + 1) with h2 | h2
    · refine Nat.le_trans (ih (by omega)) ?_
      rw [vertexRowStart_succ]
      omega
    · have : a = b + 1 := by omega
      rw [this]

theorem arithRow_fst_bounds (n x : ℕ) (hx : x < n) (p : ℕ × ℕ)
    (hp : p ∈ arithRow n x) :
    vertexRowStart n x ≤ p.1 ∧ p.1 < vertexRowStart n (x + 1) := by
  have hs := vertexRowStart_succ n x
  rw [arithRow_eq n x hx] at hp
  rcases List.mem_append.mp hp with hp2 | hp2
  · rcases List.mem_append.mp hp2 with hp3 | hp3
    · obtain ⟨k, hk, rfl⟩ := List.mem_map.mp hp3
      have := List.mem_range.mp hk
      constructor <;> simp only [] <;> omega
    · obtain ⟨k, hk, rfl⟩ := List.mem_map.mp hp3
      have := List.mem_range.mp hk
      constructor <;> simp only [] <;> omega
  · obtain ⟨k, hk, rfl⟩ := List.mem_map.mp hp2
    have := List.mem_range.mp hk
    constructor <;> simp only [] <;> omega

theorem nodup_arithRow (n x : ℕ) (hx : x < n) : (arithRow n x).Nodup := by
  have hs := vertexRowStart_succ n x
  rw [arithRow_eq n x hx]
  have hinj : ∀ c d : ℕ, Function.Injective
      (fun k : ℕ => (c + k, d + k)) := by
    intro c d a b hab
    simp only [Prod.mk.injEq] at hab
    omega
  have hinj2 : Function.Injective
      (fun k : ℕ => (vertexRowStart n x + k, vertexRowStart n x + k + 1)) := by
    intro a b hab
    simp only [Prod.mk.injEq] at hab
    omega
  have hinj3 : Function.Injective
      (fun k : ℕ => (vertexRowStart n x + k + 1,
        vertexRowStart n (x + 1) + k)) := by
    intro a b hab
    simp only [Prod.mk.injEq] at hab
    omega
  rw [List.nodup_append, List.nodup_append]
  refine ⟨⟨List.Nodup.map hinj2 (List.nodup_range _),
    List.Nodup.map (hinj _ _) (List.nodup_range _), ?_⟩,
    List.Nodup.map hinj3 (List.nodup_range _), ?_⟩
  · intro p hp1 hp2
    obtain ⟨k, hk, rfl⟩ := List.mem_map.mp hp1
    obtain ⟨k2, hk2, heq⟩ := List.mem_map.mp hp2
    have h1 := List.mem_range.mp hk
    have h2 := List.mem_range.mp hk2
    simp only [Prod.mk.injEq] at heq
    omega
  · intro p hp1 hp2
    obtain ⟨k2, hk2, heq2⟩ := List.mem_map.mp hp2
    have h2 := List.mem_range.mp hk2
    rcases List.mem_append.mp hp1 with hp3 | hp3
    · obtain ⟨k, hk, rfl⟩ := List.mem_map.mp hp3
      have h1 := List.mem_range.mp hk
      simp only [Prod.mk.injEq] at heq2
      omega
    · obtain ⟨k, hk, rfl⟩ := List.mem_map.mp hp3
      have h1 := List.mem_range.mp hk
      simp only [Prod.mk.injEq] at heq2
      omega

theorem nodup_vertexAdjacencyArith (n : ℕ) :
    (vertexAdjacencyArith n).Nodup := by
  unfold vertexAdjacencyArith
  rw [List.nodup_flatMap]
  constructor
  · intro x hx
    exact nodup_arithRow n x (List.mem_range.mp hx)
  · refine List.Pairwise.imp_of_mem ?_ (List.pairwise_lt_range n)
    intro a b ha hb hab
    have ha' : a < n := List.mem_range.mp ha
    have hb' : b < n := List.mem_range.mp hb
    intro p hpa hpb
    have hba := arithRow_fst_bounds n a ha' p hpa
    have hbb := arithRow_fst_bounds n b hb' p hpb
    have hmono := vertexRowStart_mono n (show a + 1 ≤ b by omega)
    omega

/-- C5: for every `N ≥ 1` the arithmetic row-based `vertex_adjacency` of
`src/subdivided_triangle.rs` emits every unordered lattice edge exactly once:
it has no duplicates, and it is a permutation of the variant implementation
in `src/subdivision/subdivided_triangle.rs`, which derives every triangle's
three edges, normalises them to unordered pairs and deduplicates them. -/
theorem vertex_adjacency_equiv (n : ℕ) (_hn : 1 ≤ n) :
    (vertexAdjacencyArith n).Nodup ∧ (vertexAdjacencyDedup n).Nodup ∧
    (vertexAdjacencyArith n).Perm (vertexAdjacencyDedup n) := by
  have hmem : ∀ p, p ∈ vertexAdjacencyArith n ↔ p ∈ vertexAdjacencyDedup n :=
    fun p => (mem_vertexAdjacencyArith n p).trans
      (mem_vertexAdjacencyDedup n p).symm
  have h1 := nodup_vertexAdjacencyArith n
  have h2 : (vertexAdjacencyDedup n).Nodup := nodup_uniq _
  refine ⟨h1, h2, List.perm_of_nodup_nodup_toFinset_eq h1 h2 ?_⟩
  ext p
  simp only [List.mem_toFinset]
  exact hmem p

/-- Witness for C5 at `N = 3`. -/
theorem vertex_adjacency_equiv_witness :
    (vertexAdjacencyArith 3).Nodup ∧ (vertexAdjacencyDedup 3).Nodup ∧
    (vertexAdjacencyArith 3).Perm (vertexAdjacencyDedup 3) :=
  vertex_adjacency_equiv 3 (by norm_num)

end Hexglobe
